import Mathlib

/-!
# Bounded-concurrency mapper: a shallow embedding

This file embeds the bounded-concurrency helper that appears in the repository
in three copies:

* `mapWithLimit` in `src/asyncJavaScrpit.js` (lines 207-221), and
* `processBatchWithLimit` in `src/unnamed/part_001` (lines 204-220) and
  `src/unnamed/part_002` (lines 172-192); these two copies are textually
  identical up to comments.

The JavaScript source of `mapWithLimit`:

```
async function mapWithLimit(inputs, limit, asyncMapper) {
    const results = [];
    const executing = new Set();
    for (const item of inputs) {
        const p = Promise.resolve().then(() => asyncMapper(item));
        results.push(p);
        executing.add(p);
        const cleanup = () => executing.delete(p);
        p.then(cleanup, cleanup);
        if (executing.size >= limit) {
            await Promise.race(executing);
        }
    }
    return Promise.all(results);
}
```

`processBatchWithLimit` is identical except the removal from the in-flight set
is attached with `promise.finally(() => inProgress.delete(promise))` instead of
`p.then(cleanup, cleanup)`; both mechanisms remove the promise from the set
when it settles, before the `await` in the loop resumes (both handlers are
attached before the `Promise.race` handlers).

## The model

Items are identified by their index `0, ..., n-1` in the input sequence; the
caller-supplied asynchronous operation is modelled as `op : Nat → Except ε β`,
giving for each index the eventual settlement of `asyncMapper(items[i])`
(a fulfilment value `Except.ok b` or a rejection reason `Except.error e`).

The execution is a deterministic function of a schedule `pick`, which chooses,
each time the mapper suspends on `Promise.race` (or on `Promise.all`), which of
the currently in-flight promises settles first.  A schedule is well formed
(`ValidPick`) when it always picks a member of the nonempty in-flight list.
Quantifying theorems over all such `pick` captures "regardless of completion
order".

The run records a trace of observable events (`Ev.launch i` when the promise
for item `i` is created — which is also when `asyncMapper(items[i])` is
invoked — and `Ev.settle i` when that promise settles), the aggregate outcome
of the returned promise, the number of times the limit gate
`executing.size >= limit` fired an `await Promise.race(executing)`, and the
in-flight set at the instant the aggregate promise settles.

Semantics of the control flow, mirrored from the source:

* Each loop iteration launches the item's promise, pushes it on `results`,
  adds it to the in-flight set, and then checks `executing.size >= limit`;
  if the check holds the loop awaits `Promise.race(executing)`.
* The raced settlement removes the settled promise from the in-flight set
  (the cleanup handler is attached before the race's own handlers).  If that
  settlement is a rejection, the `await` re-throws it: the async function's
  promise rejects immediately and no further items are processed.
* After the loop, `Promise.all(results)` resolves with the values in input
  order once all promises fulfil, and rejects with the first observed
  rejection; each remaining settlement is again chosen by `pick`.

The concurrency limit is modelled as `limit : Int`, since the JavaScript
function performs no validation and can be called with a nonpositive limit.
-/

namespace BoundedMapper

/-- Observable events of a run: item `i`'s promise is created (and the mapping
operation invoked on item `i`), or item `i`'s promise settles. -/
inductive Ev where
  | launch : Nat → Ev
  | settle : Nat → Ev
  deriving DecidableEq, Repr

/-- A schedule is well formed when it always selects a member of the nonempty
in-flight list it is given. -/
def ValidPick (pick : List Nat → Nat) : Prop :=
  ∀ l : List Nat, l ≠ [] → pick l ∈ l

/-- The concrete schedule that always lets the longest-in-flight promise
settle first. -/
def pickHead (l : List Nat) : Nat := l.headD 0

/-- Output of the launching loop (`for (const item of inputs) ...`):
the event trace it produced, how many times the limit gate
`executing.size >= limit` fired an `await Promise.race(executing)`, the
rejection (if any) thrown by such an `await` — which aborts the whole async
function — and the in-flight set when the loop ends or aborts. -/
structure LoopOut (ε : Type u) where
  trace : List Ev
  races : Nat
  abort : Option ε
  inflight : List Nat
  deriving Repr

/-- Output of the `Promise.all` wait: the settle events observed until the
aggregate settles, the first rejection observed (if any), and the promises
still in flight at that instant. -/
structure DrainOut (ε : Type u) where
  trace : List Ev
  abort : Option ε
  inflight : List Nat
  deriving Repr

/-- The observable summary of one call to the mapper. -/
structure RunResult (ε : Type u) (β : Type v) where
  trace : List Ev
  outcome : Except ε (List β)
  races : Nat
  finalInflight : List Nat
  deriving Repr

/-- The launching loop of `mapWithLimit`: for each remaining item, create its
promise (launch), add it to the in-flight set, then — if the in-flight count
has reached `limit` — await `Promise.race` of the in-flight set.  The schedule
`pick` chooses which in-flight promise wins the race; its cleanup removes it
from the set, and if it rejected the `await` throws, aborting the loop. -/
def mapLoop (limit : Int) (op : Nat → Except ε β) (pick : List Nat → Nat) :
    List Nat → List Nat → LoopOut ε
  | [], infl => ⟨[], 0, none, infl⟩
  | i :: rest, infl =>
    let infl' := infl ++ [i]
    if (infl'.length : Int) ≥ limit then
      match op (pick infl') with
      | .error e => ⟨[.launch i, .settle (pick infl')], 1, some e, infl'.erase (pick infl')⟩
      | .ok _ =>
        let r := mapLoop limit op pick rest (infl'.erase (pick infl'))
        ⟨.launch i :: .settle (pick infl') :: r.trace, r.races + 1, r.abort, r.inflight⟩
    else
      let r := mapLoop limit op pick rest infl'
      ⟨.launch i :: r.trace, r.races, r.abort, r.inflight⟩

/-- The `Promise.all` wait: in-flight promises settle one at a time in the
order chosen by `pick`; the first rejection observed makes the aggregate
reject at once, with the remaining promises still in flight.  The fuel
argument bounds the recursion and is instantiated with the in-flight count. -/
def drainLoop (op : Nat → Except ε β) (pick : List Nat → Nat) :
    Nat → List Nat → DrainOut ε
  | 0, infl => ⟨[], none, infl⟩
  | _ + 1, [] => ⟨[], none, []⟩
  | fuel + 1, j0 :: tl =>
    match op (pick (j0 :: tl)) with
    | .error e => ⟨[.settle (pick (j0 :: tl))], some e, (j0 :: tl).erase (pick (j0 :: tl))⟩
    | .ok _ =>
      let r := drainLoop op pick fuel ((j0 :: tl).erase (pick (j0 :: tl)))
      ⟨.settle (pick (j0 :: tl)) :: r.trace, r.abort, r.inflight⟩

/-- The value aggregation of `Promise.all(results)`: the fulfilment values of
the per-item promises, in input (push) order. -/
def collectResults (op : Nat → Except ε β) : List Nat → Except ε (List β)
  | [] => .ok []
  | i :: rest =>
    match op i with
    | .error e => .error e
    | .ok b =>
      match collectResults op rest with
      | .error e => .error e
      | .ok bs => .ok (b :: bs)

/-- One call to `mapWithLimit` on `n` items with concurrency limit `limit`,
operation `op` and schedule `pick`.  The in-flight set starts empty; the loop
runs over the items in order; if it aborts (a raced promise rejected) the
aggregate rejects there, otherwise the call returns `Promise.all(results)`,
which settles during the drain phase. -/
def mapWithLimitRun (n : Nat) (limit : Int) (op : Nat → Except ε β)
    (pick : List Nat → Nat) : RunResult ε β :=
  let L := mapLoop limit op pick (List.range n) []
  match L.abort with
  | some e => ⟨L.trace, .error e, L.races, L.inflight⟩
  | none =>
    let D := drainLoop op pick L.inflight.length L.inflight
    match D.abort with
    | some e => ⟨L.trace ++ D.trace, .error e, L.races, D.inflight⟩
    | none => ⟨L.trace ++ D.trace, collectResults op (List.range n), L.races, D.inflight⟩

/-- The launching loop of `processBatchWithLimit` (both copies): identical
control flow to `mapLoop`; the only source difference is that the removal of a
settled promise from the in-flight set is attached via
`promise.finally(() => inProgress.delete(promise))` instead of
`p.then(cleanup, cleanup)`, and both run when the promise settles, before the
race's continuation. -/
def batchLoop (limit : Int) (op : Nat → Except ε β) (pick : List Nat → Nat) :
    List Nat → List Nat → LoopOut ε
  | [], infl => ⟨[], 0, none, infl⟩
  | i :: rest, infl =>
    let infl' := infl ++ [i]
    if (infl'.length : Int) ≥ limit then
      match op (pick infl') with
      | .error e => ⟨[.launch i, .settle (pick infl')], 1, some e, infl'.erase (pick infl')⟩
      | .ok _ =>
        let r := batchLoop limit op pick rest (infl'.erase (pick infl'))
        ⟨.launch i :: .settle (pick infl') :: r.trace, r.races + 1, r.abort, r.inflight⟩
    else
      let r := batchLoop limit op pick rest infl'
      ⟨.launch i :: r.trace, r.races, r.abort, r.inflight⟩

/-- One call to `processBatchWithLimit` (either of the two identical copies). -/
def processBatchWithLimitRun (n : Nat) (limit : Int) (op : Nat → Except ε β)
    (pick : List Nat → Nat) : RunResult ε β :=
  let L := batchLoop limit op pick (List.range n) []
  match L.abort with
  | some e => ⟨L.trace, .error e, L.races, L.inflight⟩
  | none =>
    let D := drainLoop op pick L.inflight.length L.inflight
    match D.abort with
    | some e => ⟨L.trace ++ D.trace, .error e, L.races, D.inflight⟩
    | none => ⟨L.trace ++ D.trace, collectResults op (List.range n), L.races, D.inflight⟩

/-- The net number of in-flight operations a list of events leaves behind:
launches count `+1`, settlements `-1`.  Applied to the first `k` events of a
run trace it gives the in-flight count at the `k`-th observable instant. -/
def inflightCount : List Ev → Int
  | [] => 0
  | .launch _ :: tr => inflightCount tr + 1
  | .settle _ :: tr => inflightCount tr - 1

/-- The indices launched in a trace, in launch order: the items on which the
mapping operation has been invoked. -/
def launches : List Ev → List Nat
  | [] => []
  | .launch i :: tr => i :: launches tr
  | .settle _ :: tr => launches tr

/-- Reference behaviour for an unconstrained concurrent launch (no throttling):
all `n` promises are created up front with no limit-gate suspension, and the
call then waits on `Promise.all`, settlements being chosen by `pick`. -/
def concurrentAllRun (n : Nat) (op : Nat → Except ε β) (pick : List Nat → Nat) :
    RunResult ε β :=
  let D := drainLoop op pick n (List.range n)
  match D.abort with
  | some e => ⟨(List.range n).map Ev.launch ++ D.trace, .error e, 0, D.inflight⟩
  | none => ⟨(List.range n).map Ev.launch ++ D.trace, collectResults op (List.range n), 0,
      D.inflight⟩

/-- The strictly sequential trace: each item is launched and then settles
before the next item is launched; a rejection aborts the run. -/
def seqTrace (op : Nat → Except ε β) : List Nat → List Ev
  | [] => []
  | i :: rest =>
    match op i with
    | .error _ => [.launch i, .settle i]
    | .ok _ => .launch i :: .settle i :: seqTrace op rest

end BoundedMapper

namespace BoundedMapper

/-! ## Basic lemmas about the loops -/

theorem batchLoop_eq_mapLoop (limit : Int) (op : Nat → Except ε β)
    (pick : List Nat → Nat) :
    ∀ rest infl, batchLoop limit op pick rest infl = mapLoop limit op pick rest infl := by
  intro rest
  induction rest with
  | nil => intro infl; rfl
  | cons i rest ih =>
    intro infl
    simp only [batchLoop, mapLoop]
    split
    · cases op (pick (infl ++ [i])) <;> simp [ih]
    · simp [ih]

theorem mapLoop_limit_le_one (limit : Int) (hl : limit ≤ 1) (op : Nat → Except ε β)
    (pick : List Nat → Nat) :
    ∀ rest infl, mapLoop limit op pick rest infl = mapLoop 1 op pick rest infl := by
  intro rest
  induction rest with
  | nil => intro infl; rfl
  | cons i rest ih =>
    intro infl
    have h1 : ((infl ++ [i]).length : Int) ≥ 1 := by
      simp
    have h2 : ((infl ++ [i]).length : Int) ≥ limit := le_trans hl h1
    simp only [mapLoop]
    rw [if_pos h2, if_pos h1]
    cases op (pick (infl ++ [i])) <;> simp [ih]

theorem mapLoop_no_gate (limit : Int) (op : Nat → Except ε β) (pick : List Nat → Nat) :
    ∀ rest infl, ((infl.length : Int) + rest.length < limit) →
      mapLoop limit op pick rest infl = ⟨rest.map Ev.launch, 0, none, infl ++ rest⟩ := by
  intro rest
  induction rest with
  | nil => intro infl _; simp [mapLoop]
  | cons i rest ih =>
    intro infl h
    have e1 : (infl ++ [i]).length = infl.length + 1 := by simp
    have e2 : (i :: rest).length = rest.length + 1 := by simp
    rw [e2] at h
    have hlen : ¬ (((infl ++ [i]).length : Int) ≥ limit) := by
      rw [e1]; push_cast at h ⊢; omega
    have hrec : (((infl ++ [i]).length : Int) + rest.length < limit) := by
      rw [e1]; push_cast at h ⊢; omega
    simp only [mapLoop]
    rw [if_neg hlen, ih _ hrec]
    simp

theorem mapLoop_allOk_abort (limit : Int) (f : Nat → β) (pick : List Nat → Nat) :
    ∀ rest infl,
      (mapLoop (ε := ε) limit (fun i => Except.ok (f i)) pick rest infl).abort = none := by
  intro rest
  induction rest with
  | nil => intro infl; rfl
  | cons i rest ih =>
    intro infl
    simp only [mapLoop]
    split
    · simp [ih]
    · simp [ih]

theorem drainLoop_allOk_abort (f : Nat → β) (pick : List Nat → Nat) :
    ∀ fuel infl,
      (drainLoop (ε := ε) (fun i => Except.ok (f i)) pick fuel infl).abort = none := by
  intro fuel
  induction fuel with
  | zero => intro infl; rfl
  | succ fuel ih =>
    intro infl
    cases infl with
    | nil => rfl
    | cons j0 tl => simp [drainLoop, ih]

theorem collectResults_allOk (f : Nat → β) :
    ∀ l : List Nat,
      collectResults (ε := ε) (fun i => Except.ok (f i)) l = .ok (l.map f) := by
  intro l
  induction l with
  | nil => rfl
  | cons i rest ih => simp [collectResults, ih]

end BoundedMapper

namespace BoundedMapper

theorem validPick_pickHead : ValidPick pickHead := by
  intro l hl
  cases l with
  | nil => exact absurd rfl hl
  | cons a t => simp [pickHead]

/-! ## Claim theorems -/

/-- C9: for every input sequence, limit, operation and completion schedule, the
three copies of the bounded-concurrency mapper — `mapWithLimit` (which removes
a settled promise from the executing set via `then(cleanup, cleanup)`) and the
two textually identical `processBatchWithLimit` copies (which remove it via
`finally`) — produce the same trace, the same result and the same failure
outcome. -/
theorem processBatch_eq_mapWithLimit (n : Nat) (limit : Int) (op : Nat → Except ε β)
    (pick : List Nat → Nat) :
    processBatchWithLimitRun n limit op pick = mapWithLimitRun n limit op pick := by
  simp only [processBatchWithLimitRun, mapWithLimitRun, batchLoop_eq_mapLoop]

/-- C8: for every limit ≥ 1, operation and schedule, calling the mapper with an
empty input sequence returns an empty result immediately — empty trace (so the
operation is never invoked), successful empty outcome, no limit-gate
suspension, and an empty in-flight set. -/
theorem mapWithLimit_empty_input (limit : Int) (op : Nat → Except ε β)
    (pick : List Nat → Nat) (hl : 1 ≤ limit) :
    mapWithLimitRun 0 limit op pick = ⟨[], .ok [], 0, []⟩ := rfl

theorem mapWithLimit_empty_input_witness :
    (1 : Int) ≤ 1 ∧
      mapWithLimitRun 0 1 (fun _ => (Except.ok 0 : Except Unit Nat)) pickHead =
        ⟨[], .ok [], 0, []⟩ :=
  ⟨by decide, mapWithLimit_empty_input 1 (fun _ => Except.ok 0) pickHead (by decide)⟩

/-- C10: calling the mapper with a nonpositive limit (violating the stated
precondition limit ≥ 1) raises no error — the model, like the source, is total
there — and behaves exactly like limit = 1: because the occupancy check runs
after each launch and the in-flight set is then nonempty, the gate fires after
every launch, giving fully sequential execution with identical observable
behaviour. -/
theorem mapWithLimit_nonpositive_limit (n : Nat) (limit : Int) (op : Nat → Except ε β)
    (pick : List Nat → Nat) (hl : limit ≤ 0) :
    mapWithLimitRun n limit op pick = mapWithLimitRun n 1 op pick := by
  simp only [mapWithLimitRun, mapLoop_limit_le_one limit (le_trans hl (by norm_num)) op pick]

theorem mapWithLimit_nonpositive_limit_witness :
    (-2 : Int) ≤ 0 ∧
      mapWithLimitRun 2 (-2) (fun i => (Except.ok i : Except Unit Nat)) pickHead =
        mapWithLimitRun 2 1 (fun i => Except.ok i) pickHead :=
  ⟨by decide, mapWithLimit_nonpositive_limit 2 (-2) (fun i => Except.ok i) pickHead (by decide)⟩

end BoundedMapper

namespace BoundedMapper

theorem concurrentAllRun_races (n : Nat) (op : Nat → Except ε β) (pick : List Nat → Nat) :
    (concurrentAllRun n op pick).races = 0 := by
  simp only [concurrentAllRun]
  cases hD : (drainLoop op pick n (List.range n)).abort <;> simp [hD]

/-- C7 counterexample: the claim "if limit ≥ the number of items the
limit-triggered suspension never fires" is false at limit = 1 with a single
item whose operation succeeds: the occupancy check runs after the launch,
finds the in-flight count equal to the limit, and fires one
`await Promise.race` — the recorded suspension count is 1, not 0. -/
theorem mapWithLimit_gate_fires_at_limit_eq_card :
    ((1 : Nat) : Int) ≤ 1 ∧
      (mapWithLimitRun 1 1 (fun _ => (Except.ok 0 : Except Unit Nat)) pickHead).races = 1 :=
  ⟨by decide, rfl⟩

/-- C7 (amended): if limit is strictly greater than the number of items, the
limit-triggered suspension never fires and the whole run — trace, outcome,
suspension count and final in-flight set — coincides with launching all
operations concurrently with no throttling; at limit = number of items the
gate fires once, after the last launch (see the counterexample), though the
results are unchanged. -/
theorem mapWithLimit_limit_gt_card (n : Nat) (limit : Int) (op : Nat → Except ε β)
    (pick : List Nat → Nat) (h : (n : Int) < limit) :
    (mapWithLimitRun n limit op pick).races = 0 ∧
      mapWithLimitRun n limit op pick = concurrentAllRun n op pick := by
  have hn : ((([] : List Nat).length : Int) + (List.range n).length < limit) := by
    simp [List.length_range]
    exact_mod_cast h
  have hL := mapLoop_no_gate limit op pick (List.range n) [] hn
  rw [List.nil_append] at hL
  have h2 : mapWithLimitRun n limit op pick = concurrentAllRun n op pick := by
    simp only [mapWithLimitRun, concurrentAllRun, hL, List.length_range]
  exact ⟨h2 ▸ concurrentAllRun_races n op pick, h2⟩

theorem mapWithLimit_limit_gt_card_witness :
    ((2 : Nat) : Int) < 3 ∧
      ((mapWithLimitRun 2 3 (fun i => (Except.ok (i + 1) : Except Unit Nat)) pickHead).races = 0 ∧
        mapWithLimitRun 2 3 (fun i => (Except.ok (i + 1) : Except Unit Nat)) pickHead =
          concurrentAllRun 2 (fun i => Except.ok (i + 1)) pickHead) :=
  ⟨by decide, mapWithLimit_limit_gt_card 2 3 (fun i => Except.ok (i + 1)) pickHead (by decide)⟩

/-- C2: for every non-empty input sequence, every limit ≥ 1 and every schedule,
when all invocations of the operation succeed the mapper's outcome is the
successful sequence whose length equals the input length and whose i-th
element is the resolved value of the operation on item i, regardless of the
order in which operations complete. -/
theorem mapWithLimit_results_in_order (n : Nat) (limit : Int) (f : Nat → β)
    (pick : List Nat → Nat) (hn : 0 < n) (hl : 1 ≤ limit) :
    (mapWithLimitRun (ε := ε) n limit (fun i => Except.ok (f i)) pick).outcome =
        .ok ((List.range n).map f) ∧
      ((List.range n).map f).length = n ∧
      ∀ i, i < n → ((List.range n).map f)[i]? = some (f i) := by
  refine ⟨?_, by simp, ?_⟩
  · simp [mapWithLimitRun, mapLoop_allOk_abort, drainLoop_allOk_abort, collectResults_allOk]
  · intro i hi
    simp [List.getElem?_map, List.getElem?_range, hi]

theorem mapWithLimit_results_in_order_witness :
    0 < 3 ∧ (1 : Int) ≤ 2 ∧
      ((mapWithLimitRun 3 2 (fun i => (Except.ok (i * 10) : Except Unit Nat)) pickHead).outcome =
          .ok ((List.range 3).map (fun i => i * 10)) ∧
        ((List.range 3).map (fun i => i * 10)).length = 3 ∧
        ∀ i, i < 3 → ((List.range 3).map (fun i => i * 10))[i]? = some (i * 10)) :=
  ⟨by decide, by decide,
    mapWithLimit_results_in_order 3 2 (fun i => i * 10) pickHead (by decide) (by decide)⟩

end BoundedMapper

namespace BoundedMapper

theorem inflightCount_append (a b : List Ev) :
    inflightCount (a ++ b) = inflightCount a + inflightCount b := by
  induction a with
  | nil => simp [inflightCount]
  | cons e t ih => cases e <;> simp [inflightCount, ih] <;> ring

theorem drainLoop_trace_settle (op : Nat → Except ε β) (pick : List Nat → Nat) :
    ∀ fuel infl, ∀ e ∈ (drainLoop op pick fuel infl).trace, ∃ j, e = Ev.settle j := by
  intro fuel
  induction fuel with
  | zero => intro infl e he; simp [drainLoop] at he
  | succ fuel ih =>
    intro infl e he
    cases infl with
    | nil => simp [drainLoop] at he
    | cons j0 tl =>
      simp only [drainLoop] at he
      cases hop : op (pick (j0 :: tl)) with
      | error e' =>
        rw [hop] at he
        simp at he
        exact ⟨_, he⟩
      | ok b =>
        rw [hop] at he
        simp at he
        rcases he with h | h
        · exact ⟨_, h⟩
        · exact ih _ e h

theorem inflightCount_take_nonpos (tr : List Ev)
    (h : ∀ e ∈ tr, ∃ j, e = Ev.settle j) : ∀ k, inflightCount (tr.take k) ≤ 0 := by
  induction tr with
  | nil => intro k; simp [inflightCount]
  | cons e t ih =>
    intro k
    cases k with
    | zero => simp [inflightCount]
    | succ k =>
      obtain ⟨j, rfl⟩ := h e (by simp)
      simp only [List.take_succ_cons, inflightCount]
      have := ih (fun e he => h e (by simp [he])) k
      omega

theorem mapLoop_take_bound (limit : Int) (op : Nat → Except ε β) (pick : List Nat → Nat)
    (hp : ValidPick pick) :
    ∀ rest infl, (infl.length : Int) < limit →
      ∀ k, (infl.length : Int) +
        inflightCount ((mapLoop limit op pick rest infl).trace.take k) ≤ limit := by
  intro rest
  induction rest with
  | nil =>
    intro infl h k
    simp [mapLoop, inflightCount]
    omega
  | cons i rest ih =>
    intro infl h k
    by_cases hg : ((infl ++ [i]).length : Int) ≥ limit
    · have hmem : pick (infl ++ [i]) ∈ infl ++ [i] := hp _ (by simp)
      have hlen : (((infl ++ [i]).erase (pick (infl ++ [i]))).length : Int) =
          (infl.length : Int) := by
        have h1 := List.length_erase_add_one hmem
        have h2 : (infl ++ [i]).length = infl.length + 1 := by simp
        omega
      cases hop : op (pick (infl ++ [i])) with
      | error e =>
        simp only [mapLoop, if_pos hg, hop]
        rcases k with _ | _ | k <;> simp [inflightCount] <;> omega
      | ok b =>
        simp only [mapLoop, if_pos hg, hop]
        rcases k with _ | _ | k
        · simp [inflightCount]; omega
        · simp [inflightCount]; omega
        · simp only [List.take_succ_cons, inflightCount]
          have hrec := ih ((infl ++ [i]).erase (pick (infl ++ [i]))) (by omega) k
          omega
    · have hlen : ((infl ++ [i]).length : Int) = (infl.length : Int) + 1 := by
        simp
      cases k with
      | zero => simp [mapLoop, if_neg hg, inflightCount]; omega
      | succ k =>
        simp only [mapLoop, if_neg hg, List.take_succ_cons, inflightCount]
        have hrec := ih (infl ++ [i]) (by omega) k
        omega

/-- C1: for every input sequence, limit ≥ 1, operation and completion
schedule, at every observable instant during the call (every trace point) the
number of launched-but-not-yet-settled operations is at most the limit. -/
theorem mapWithLimit_inflight_le_limit (n : Nat) (limit : Int) (op : Nat → Except ε β)
    (pick : List Nat → Nat) (hp : ValidPick pick) (hl : 1 ≤ limit) (k : Nat) :
    inflightCount ((mapWithLimitRun n limit op pick).trace.take k) ≤ limit := by
  have hstart : ((([] : List Nat).length : Int)) < limit := by
    simp
    omega
  have hL := mapLoop_take_bound limit op pick hp (List.range n) [] hstart
  simp only [List.length_nil, Int.natCast_zero, zero_add] at hL
  cases habort : (mapLoop limit op pick (List.range n) []).abort with
  | some e =>
    have htr : (mapWithLimitRun n limit op pick).trace =
        (mapLoop limit op pick (List.range n) []).trace := by
      simp only [mapWithLimitRun, habort]
    rw [htr]
    exact hL k
  | none =>
    have htr : (mapWithLimitRun n limit op pick).trace =
        (mapLoop limit op pick (List.range n) []).trace ++
          (drainLoop op pick (mapLoop limit op pick (List.range n) []).inflight.length
            (mapLoop limit op pick (List.range n) []).inflight).trace := by
      simp only [mapWithLimitRun, habort]
      cases hD : (drainLoop op pick (mapLoop limit op pick (List.range n) []).inflight.length
          (mapLoop limit op pick (List.range n) []).inflight).abort <;> simp [hD]
    rw [htr, List.take_append_eq_append_take, inflightCount_append]
    have h1 := hL k
    have h2 := inflightCount_take_nonpos _
      (drainLoop_trace_settle op pick
        (mapLoop limit op pick (List.range n) []).inflight.length
        (mapLoop limit op pick (List.range n) []).inflight)
      (k - (mapLoop limit op pick (List.range n) []).trace.length)
    omega

theorem mapWithLimit_inflight_le_limit_witness :
    ValidPick pickHead ∧ (1 : Int) ≤ 2 ∧
      inflightCount ((mapWithLimitRun 3 2 (fun i => (Except.ok i : Except Unit Nat))
        pickHead).trace.take 2) ≤ 2 :=
  ⟨validPick_pickHead, by decide,
    mapWithLimit_inflight_le_limit 3 2 (fun i => Except.ok i) pickHead
      validPick_pickHead (by decide) 2⟩

end BoundedMapper

namespace BoundedMapper

theorem launches_append (a b : List Ev) : launches (a ++ b) = launches a ++ launches b := by
  induction a with
  | nil => simp [launches]
  | cons e t ih => cases e <;> simp [launches, ih]

theorem count_launch_eq_count_launches (tr : List Ev) (x : Nat) :
    tr.count (Ev.launch x) = (launches tr).count x := by
  induction tr with
  | nil => simp [launches]
  | cons e t ih =>
    cases e with
    | launch i =>
      by_cases hix : i = x
      · subst hix; simp [launches, List.count_cons, ih]
      · simp [launches, List.count_cons, ih, hix]
    | settle j => simp [launches, List.count_cons, ih]

theorem drainLoop_launches (op : Nat → Except ε β) (pick : List Nat → Nat) :
    ∀ fuel infl, launches (drainLoop op pick fuel infl).trace = [] := by
  intro fuel
  induction fuel with
  | zero => intro infl; rfl
  | succ fuel ih =>
    intro infl
    cases infl with
    | nil => rfl
    | cons j0 tl =>
      simp only [drainLoop]
      cases hop : op (pick (j0 :: tl)) with
      | error e => simp [launches]
      | ok b => simp [launches, ih]

theorem mapLoop_launches_take (limit : Int) (op : Nat → Except ε β)
    (pick : List Nat → Nat) :
    ∀ rest infl, ∃ m, launches (mapLoop limit op pick rest infl).trace = rest.take m := by
  intro rest
  induction rest with
  | nil => intro infl; exact ⟨0, rfl⟩
  | cons i rest ih =>
    intro infl
    simp only [mapLoop]
    split
    · cases hop : op (pick (infl ++ [i])) with
      | error e => exact ⟨1, by simp [hop, launches]⟩
      | ok b =>
        obtain ⟨m, hm⟩ := ih ((infl ++ [i]).erase (pick (infl ++ [i])))
        exact ⟨m + 1, by simp [hop, launches, hm]⟩
    · obtain ⟨m, hm⟩ := ih (infl ++ [i])
      exact ⟨m + 1, by simp [launches, hm]⟩

theorem mapLoop_launches_no_abort (limit : Int) (op : Nat → Except ε β)
    (pick : List Nat → Nat) :
    ∀ rest infl, (mapLoop limit op pick rest infl).abort = none →
      launches (mapLoop limit op pick rest infl).trace = rest := by
  intro rest
  induction rest with
  | nil => intro infl _; rfl
  | cons i rest ih =>
    intro infl habort
    simp only [mapLoop] at habort ⊢
    revert habort
    split
    · cases hop : op (pick (infl ++ [i])) with
      | error e => intro habort; simp [hop] at habort
      | ok b =>
        intro habort
        simp only [hop] at habort ⊢
        simp [launches, ih _ habort]
    · intro habort
      simp [launches, ih _ habort]

theorem mapWithLimitRun_ok_aborts (n : Nat) (limit : Int) (op : Nat → Except ε β)
    (pick : List Nat → Nat) (res : List β)
    (h : (mapWithLimitRun n limit op pick).outcome = .ok res) :
    (mapLoop limit op pick (List.range n) []).abort = none ∧
      (drainLoop op pick (mapLoop limit op pick (List.range n) []).inflight.length
        (mapLoop limit op pick (List.range n) []).inflight).abort = none := by
  cases habort : (mapLoop limit op pick (List.range n) []).abort with
  | some e => simp [mapWithLimitRun, habort] at h
  | none =>
    cases hD : (drainLoop op pick (mapLoop limit op pick (List.range n) []).inflight.length
        (mapLoop limit op pick (List.range n) []).inflight).abort with
    | some e => simp [mapWithLimitRun, habort, hD] at h
    | none => exact ⟨rfl, rfl⟩

theorem mapWithLimitRun_trace_of_no_abort (n : Nat) (limit : Int) (op : Nat → Except ε β)
    (pick : List Nat → Nat)
    (habort : (mapLoop limit op pick (List.range n) []).abort = none) :
    (mapWithLimitRun n limit op pick).trace =
      (mapLoop limit op pick (List.range n) []).trace ++
        (drainLoop op pick (mapLoop limit op pick (List.range n) []).inflight.length
          (mapLoop limit op pick (List.range n) []).inflight).trace := by
  simp only [mapWithLimitRun, habort]
  cases hD : (drainLoop op pick (mapLoop limit op pick (List.range n) []).inflight.length
      (mapLoop limit op pick (List.range n) []).inflight).abort <;> simp [hD]

theorem mapLoop_settle_or_inflight (limit : Int) (op : Nat → Except ε β)
    (pick : List Nat → Nat) :
    ∀ rest infl, (mapLoop limit op pick rest infl).abort = none →
      ∀ i, i ∈ infl ++ rest →
        Ev.settle i ∈ (mapLoop limit op pick rest infl).trace ∨
          i ∈ (mapLoop limit op pick rest infl).inflight := by
  intro rest
  induction rest with
  | nil =>
    intro infl _ i hi
    right
    simpa [mapLoop] using hi
  | cons hd rest ih =>
    intro infl habort i hi
    simp only [mapLoop] at habort ⊢
    revert habort
    split
    · cases hop : op (pick (infl ++ [hd])) with
      | error e => intro habort; simp [hop] at habort
      | ok b =>
        intro habort
        simp only [hop] at habort ⊢
        by_cases hij : i = pick (infl ++ [hd])
        · left
          simp [hij]
        · have hi' : i ∈ (infl ++ [hd]).erase (pick (infl ++ [hd])) ++ rest := by
            rcases List.mem_append.1 hi with h | h
            · exact List.mem_append.2 (Or.inl ((List.mem_erase_of_ne hij).2 (by simp [h])))
            · rcases List.mem_cons.1 h with h | h
              · exact List.mem_append.2
                  (Or.inl ((List.mem_erase_of_ne hij).2 (by simp [h])))
              · exact List.mem_append.2 (Or.inr h)
          rcases ih _ habort i hi' with h | h
          · left; simp [h]
          · right; exact h
    · intro habort
      have hi' : i ∈ (infl ++ [hd]) ++ rest := by
        rcases List.mem_append.1 hi with h | h
        · exact List.mem_append.2 (Or.inl (by simp [h]))
        · rcases List.mem_cons.1 h with h | h
          · exact List.mem_append.2 (Or.inl (by simp [h]))
          · exact List.mem_append.2 (Or.inr h)
      rcases ih _ habort i hi' with h | h
      · left; simp [h]
      · right; exact h

theorem drainLoop_complete (op : Nat → Except ε β) (pick : List Nat → Nat)
    (hp : ValidPick pick) :
    ∀ fuel infl, infl.length ≤ fuel →
      (drainLoop op pick fuel infl).abort = none →
        (drainLoop op pick fuel infl).inflight = [] ∧
          ∀ i ∈ infl, Ev.settle i ∈ (drainLoop op pick fuel infl).trace := by
  intro fuel
  induction fuel with
  | zero =>
    intro infl hle _
    have : infl = [] := List.length_eq_zero.1 (Nat.le_zero.1 hle)
    subst this
    exact ⟨rfl, by simp⟩
  | succ fuel ih =>
    intro infl hle habort
    cases infl with
    | nil => exact ⟨rfl, by simp⟩
    | cons j0 tl =>
      have hmem : pick (j0 :: tl) ∈ j0 :: tl := hp _ (by simp)
      cases hop : op (pick (j0 :: tl)) with
      | error e => simp [drainLoop, hop] at habort
      | ok b =>
        simp only [drainLoop, hop] at habort ⊢
        have hlen : ((j0 :: tl).erase (pick (j0 :: tl))).length ≤ fuel := by
          have h1 := List.length_erase_add_one hmem
          simp only [List.length_cons] at h1 hle
          omega
        obtain ⟨hfin, hsettle⟩ := ih _ hlen habort
        refine ⟨hfin, ?_⟩
        intro i hi
        by_cases hij : i = pick (j0 :: tl)
        · simp [hij]
        · have : i ∈ (j0 :: tl).erase (pick (j0 :: tl)) :=
            (List.mem_erase_of_ne hij).2 hi
          simp [hsettle i this]

end BoundedMapper

namespace BoundedMapper

theorem mem_launches (tr : List Ev) (i : Nat) :
    i ∈ launches tr ↔ Ev.launch i ∈ tr := by
  induction tr with
  | nil => simp [launches]
  | cons e t ih =>
    cases e with
    | launch j => simp [launches, ih]
    | settle j => simp [launches, ih]

theorem mapWithLimitRun_launches_take (n : Nat) (limit : Int) (op : Nat → Except ε β)
    (pick : List Nat → Nat) :
    ∃ m, launches (mapWithLimitRun n limit op pick).trace = (List.range n).take m := by
  obtain ⟨m, hm⟩ := mapLoop_launches_take limit op pick (List.range n) []
  refine ⟨m, ?_⟩
  cases habort : (mapLoop limit op pick (List.range n) []).abort with
  | some e =>
    have htr : (mapWithLimitRun n limit op pick).trace =
        (mapLoop limit op pick (List.range n) []).trace := by
      simp only [mapWithLimitRun, habort]
    rw [htr]
    exact hm
  | none =>
    rw [mapWithLimitRun_trace_of_no_abort n limit op pick habort, launches_append,
      drainLoop_launches, List.append_nil]
    exact hm

theorem mapWithLimitRun_launches_ok (n : Nat) (limit : Int) (op : Nat → Except ε β)
    (pick : List Nat → Nat)
    (habort : (mapLoop limit op pick (List.range n) []).abort = none) :
    launches (mapWithLimitRun n limit op pick).trace = List.range n := by
  rw [mapWithLimitRun_trace_of_no_abort n limit op pick habort, launches_append,
    drainLoop_launches, List.append_nil]
  exact mapLoop_launches_no_abort limit op pick (List.range n) [] habort

/-- C4 counterexample: the claim that even in runs with failing invocations
every item is invoked exactly once is false.  With two items, limit 1, and an
operation that fails on item 0, the rejection is delivered at the concurrency
gate's `await Promise.race`, the loop aborts, the call fails, and item 1 is
never launched: its operation is invoked zero times, not once. -/
theorem mapWithLimit_skips_item_after_gate_failure :
    (mapWithLimitRun 2 1
        (fun i => if i = 0 then (Except.error () : Except Unit Nat) else Except.ok i)
        pickHead).outcome = .error () ∧
      (mapWithLimitRun 2 1
        (fun i => if i = 0 then (Except.error () : Except Unit Nat) else Except.ok i)
        pickHead).trace.count (Ev.launch 1) = 0 :=
  ⟨rfl, by decide⟩

/-- C4 (amended): in every run the mapper invokes the operation at most once
per item (no item is invoked twice), and in every run whose aggregate outcome
is a success it invokes the operation exactly once per item; when a failure is
delivered while suspended at the concurrency gate, items after the aborted
iteration are never invoked (see the counterexample). -/
theorem mapWithLimit_invocation_counts (n : Nat) (limit : Int) (op : Nat → Except ε β)
    (pick : List Nat → Nat) :
    (∀ i, (mapWithLimitRun n limit op pick).trace.count (Ev.launch i) ≤ 1) ∧
      (∀ res, (mapWithLimitRun n limit op pick).outcome = .ok res →
        ∀ i, i < n → (mapWithLimitRun n limit op pick).trace.count (Ev.launch i) = 1) := by
  constructor
  · intro i
    obtain ⟨m, hm⟩ := mapWithLimitRun_launches_take n limit op pick
    rw [count_launch_eq_count_launches, hm]
    calc ((List.range n).take m).count i ≤ (List.range n).count i :=
          (List.take_sublist m _).count_le i
      _ ≤ 1 := List.nodup_iff_count_le_one.1 (List.nodup_range n) i
  · intro res hok i hi
    obtain ⟨hA, _⟩ := mapWithLimitRun_ok_aborts n limit op pick res hok
    rw [count_launch_eq_count_launches, mapWithLimitRun_launches_ok n limit op pick hA]
    exact List.count_eq_one_of_mem (List.nodup_range n) (List.mem_range.2 hi)

theorem mapWithLimit_invocation_counts_witness :
    (mapWithLimitRun 2 2 (fun i => (Except.ok i : Except Unit Nat)) pickHead).outcome =
        .ok [0, 1] ∧
      (mapWithLimitRun 2 2 (fun i => (Except.ok i : Except Unit Nat)) pickHead).trace.count
        (Ev.launch 0) = 1 :=
  ⟨rfl,
    (mapWithLimit_invocation_counts 2 2 (fun i => Except.ok i) pickHead).2 [0, 1]
      rfl 0 (by decide)⟩

/-- C3 counterexample: the claim that the overall result is delivered only
after every launched operation has settled is false.  With two items, limit 2,
and an operation that fails on item 0 while item 1 is still pending, the
`await Promise.race` at the gate re-throws item 0's rejection and the call
fails at once: item 1 has been launched but has not settled when the failure
is delivered. -/
theorem mapWithLimit_fails_before_all_settled :
    (mapWithLimitRun 2 2
        (fun i => if i = 0 then (Except.error () : Except Unit Nat) else Except.ok i)
        pickHead).outcome = .error () ∧
      Ev.launch 1 ∈ (mapWithLimitRun 2 2
        (fun i => if i = 0 then (Except.error () : Except Unit Nat) else Except.ok i)
        pickHead).trace ∧
      Ev.settle 1 ∉ (mapWithLimitRun 2 2
        (fun i => if i = 0 then (Except.error () : Except Unit Nat) else Except.ok i)
        pickHead).trace :=
  ⟨rfl, by decide, by decide⟩

/-- C3 (amended): when the call succeeds, the result is delivered only after
every launched operation has settled.  When an operation fails, the call fails
as soon as the failure is observed (at the gate's race or during the final
aggregation); already-launched siblings are not cancelled, but the failure may
be delivered while they are still unsettled (see the counterexample). -/
theorem mapWithLimit_success_all_settled (n : Nat) (limit : Int) (op : Nat → Except ε β)
    (pick : List Nat → Nat) (hp : ValidPick pick) (res : List β)
    (hok : (mapWithLimitRun n limit op pick).outcome = .ok res) :
    ∀ i, Ev.launch i ∈ (mapWithLimitRun n limit op pick).trace →
      Ev.settle i ∈ (mapWithLimitRun n limit op pick).trace := by
  obtain ⟨hA, hD⟩ := mapWithLimitRun_ok_aborts n limit op pick res hok
  intro i hin
  have htr := mapWithLimitRun_trace_of_no_abort n limit op pick hA
  have hiR : i ∈ List.range n := by
    rw [← mapWithLimitRun_launches_ok n limit op pick hA]
    exact (mem_launches _ i).2 hin
  rcases mapLoop_settle_or_inflight limit op pick (List.range n) [] hA i
      (by simpa using hiR) with h | h
  · rw [htr]
    exact List.mem_append.2 (Or.inl h)
  · have hsettle := (drainLoop_complete op pick hp
      (mapLoop limit op pick (List.range n) []).inflight.length
      (mapLoop limit op pick (List.range n) []).inflight le_rfl hD).2
    rw [htr]
    exact List.mem_append.2 (Or.inr (hsettle i h))

theorem mapWithLimit_success_all_settled_witness :
    (mapWithLimitRun 2 1 (fun i => (Except.ok i : Except Unit Nat)) pickHead).outcome =
        .ok [0, 1] ∧
      Ev.settle 0 ∈
        (mapWithLimitRun 2 1 (fun i => (Except.ok i : Except Unit Nat)) pickHead).trace :=
  ⟨rfl,
    mapWithLimit_success_all_settled 2 1 (fun i => Except.ok i) pickHead validPick_pickHead
      [0, 1] rfl 0 (by decide)⟩

/-- C5 counterexample: the claim that the in-flight set is empty at the moment
the call completes, also when it completes with a surfaced failure, is false.
With two items, limit 2, and an operation that fails on item 0 while item 1 is
still pending, the call rejects at the gate's race with item 1 still in the
in-flight set. -/
theorem mapWithLimit_inflight_nonempty_on_failure :
    (mapWithLimitRun 2 2
        (fun i => if i = 0 then (Except.error () : Except Unit Nat) else Except.ok i)
        pickHead).outcome = .error () ∧
      (mapWithLimitRun 2 2
        (fun i => if i = 0 then (Except.error () : Except Unit Nat) else Except.ok i)
        pickHead).finalInflight = [1] :=
  ⟨rfl, rfl⟩

/-- C5 (amended): the in-flight set is empty before the first operation starts
(the run begins with the empty in-flight set, so the in-flight count at
instant 0 is 0), and it is empty again at the moment the call completes
whenever the call succeeds; on a surfaced failure, operations may still be in
flight at that moment (see the counterexample). -/
theorem mapWithLimit_success_inflight_empty (n : Nat) (limit : Int) (op : Nat → Except ε β)
    (pick : List Nat → Nat) (hp : ValidPick pick) (res : List β)
    (hok : (mapWithLimitRun n limit op pick).outcome = .ok res) :
    inflightCount ((mapWithLimitRun n limit op pick).trace.take 0) = 0 ∧
      (mapWithLimitRun n limit op pick).finalInflight = [] := by
  obtain ⟨hA, hD⟩ := mapWithLimitRun_ok_aborts n limit op pick res hok
  refine ⟨by simp [inflightCount], ?_⟩
  have hfin := (drainLoop_complete op pick hp
    (mapLoop limit op pick (List.range n) []).inflight.length
    (mapLoop limit op pick (List.range n) []).inflight le_rfl hD).1
  simp only [mapWithLimitRun, hA, hD]
  exact hfin

theorem mapWithLimit_success_inflight_empty_witness :
    (mapWithLimitRun 2 1 (fun i => (Except.ok i : Except Unit Nat)) pickHead).outcome =
        .ok [0, 1] ∧
      (inflightCount ((mapWithLimitRun 2 1 (fun i => (Except.ok i : Except Unit Nat))
          pickHead).trace.take 0) = 0 ∧
        (mapWithLimitRun 2 1 (fun i => (Except.ok i : Except Unit Nat))
          pickHead).finalInflight = []) :=
  ⟨rfl,
    mapWithLimit_success_inflight_empty 2 1 (fun i => Except.ok i) pickHead
      validPick_pickHead [0, 1] rfl⟩

end BoundedMapper

namespace BoundedMapper

theorem mapLoop_limit_one (op : Nat → Except ε β) (pick : List Nat → Nat)
    (hp : ValidPick pick) :
    ∀ rest, (mapLoop 1 op pick rest []).trace = seqTrace op rest ∧
      (mapLoop 1 op pick rest []).inflight = [] := by
  intro rest
  induction rest with
  | nil => exact ⟨rfl, rfl⟩
  | cons i rest ih =>
    have hpick : pick [i] = i := by
      have h := hp [i] (by simp)
      simpa using h
    simp only [mapLoop, List.nil_append]
    split
    · rw [hpick]
      cases hop : op i with
      | error e => simp [hop, seqTrace]
      | ok b => simp [hop, seqTrace, ih.1, ih.2]
    · next hgate =>
      exact absurd (by simp) hgate

theorem seqTrace_order (op : Nat → Except ε β) :
    ∀ (m s k x j : Nat), s ≤ j → j < x →
      Ev.launch x ∈ (seqTrace op (List.range' s m)).take k →
      Ev.settle j ∈ (seqTrace op (List.range' s m)).take k := by
  intro m
  induction m with
  | zero =>
    intro s k x j _ _ hmem
    simp [List.range', seqTrace] at hmem
  | succ m ih =>
    intro s k x j hsj hjx hmem
    rw [List.range'_succ] at hmem ⊢
    cases hop : op s with
    | error e =>
      rw [show seqTrace op (s :: List.range' (s + 1) m) = [.launch s, .settle s] from by
        simp [seqTrace, hop]] at hmem ⊢
      exfalso
      have hx := List.mem_of_mem_take hmem
      simp at hx
      omega
    | ok b =>
      rw [show seqTrace op (s :: List.range' (s + 1) m) =
          .launch s :: .settle s :: seqTrace op (List.range' (s + 1) m) from by
        simp [seqTrace, hop]] at hmem ⊢
      rcases k with _ | _ | k
      · simp at hmem
      · simp at hmem
        omega
      · simp only [List.take_succ_cons] at hmem ⊢
        rcases List.mem_cons.1 hmem with h | h
        · exfalso
          have : x = s := by simpa using h
          omega
        · rcases List.mem_cons.1 h with h2 | h2
          · exact absurd h2 (by simp)
          · by_cases hj : j = s
            · subst hj
              simp
            · have hsj' : s + 1 ≤ j := by omega
              have := ih (s + 1) k x j hsj' hjx h2
              simp [this]

/-- C6: for every input sequence, operation and completion schedule, calling
the mapper with limit = 1 is strictly sequential: at no point of the trace has
item i+1 been launched before item i settled — whenever the first k events
contain the launch of item i+1, they also contain the settlement of item i. -/
theorem mapWithLimit_limit_one_sequential (n : Nat) (op : Nat → Except ε β)
    (pick : List Nat → Nat) (hp : ValidPick pick) (k i : Nat)
    (h : Ev.launch (i + 1) ∈ (mapWithLimitRun n 1 op pick).trace.take k) :
    Ev.settle i ∈ (mapWithLimitRun n 1 op pick).trace.take k := by
  obtain ⟨htr, hinfl⟩ := mapLoop_limit_one op pick hp (List.range n)
  have hrun : (mapWithLimitRun n 1 op pick).trace = seqTrace op (List.range n) := by
    cases habort : (mapLoop 1 op pick (List.range n) []).abort with
    | some e =>
      have : (mapWithLimitRun n 1 op pick).trace =
          (mapLoop 1 op pick (List.range n) []).trace := by
        simp only [mapWithLimitRun, habort]
      rw [this, htr]
    | none =>
      rw [mapWithLimitRun_trace_of_no_abort n 1 op pick habort]
      simp [hinfl, htr, drainLoop]
  rw [hrun, List.range_eq_range'] at h ⊢
  exact seqTrace_order op n 0 k (i + 1) i (Nat.zero_le i) (Nat.lt_succ_self i) h

theorem mapWithLimit_limit_one_sequential_witness :
    Ev.launch 1 ∈ ((mapWithLimitRun 2 1 (fun i => (Except.ok i : Except Unit Nat))
        pickHead).trace.take 3) ∧
      Ev.settle 0 ∈ ((mapWithLimitRun 2 1 (fun i => (Except.ok i : Except Unit Nat))
        pickHead).trace.take 3) :=
  ⟨by decide,
    mapWithLimit_limit_one_sequential 2 (fun i => Except.ok i) pickHead validPick_pickHead
      3 0 (by decide)⟩

end BoundedMapper
